import Mathlib

/-!
Verification of the Teardown API scraper (src/data/scraper.js) against its
specification. The JavaScript functions are shallowly embedded as Lean
functions over `List Char`; JavaScript exceptions (TypeError on indexing
`undefined`) are modelled with `Except Unit`; regular-expression matching is
implemented by deterministic scanners equivalent to the engine's
leftmost-match backtracking semantics for the concrete patterns of the
source. Bounded recursion over suffixes uses an explicit fuel argument set
to `length + 1`, which is always sufficient because every step consumes at
least one character.
-/

set_option maxRecDepth 8192

namespace Scraper

abbrev Str := List Char

/-- JavaScript `\s` character class (also the set trimmed by `trim()`). -/
def isWsChar (c : Char) : Bool :=
  c == ' ' || c == '\t' || c == '\n' || c == '\r' ||
  c == Char.ofNat 0x0b || c == Char.ofNat 0x0c ||
  c == Char.ofNat 0xa0 || c == Char.ofNat 0x1680 ||
  (0x2000 ≤ c.toNat && c.toNat ≤ 0x200a) ||
  c == Char.ofNat 0x2028 || c == Char.ofNat 0x2029 ||
  c == Char.ofNat 0x202f || c == Char.ofNat 0x205f ||
  c == Char.ofNat 0x3000 || c == Char.ofNat 0xfeff

/-- Line terminators, which the regex metacharacter `.` does not match. -/
def isLineTerm (c : Char) : Bool :=
  c == '\n' || c == '\r' || c == Char.ofNat 0x2028 || c == Char.ofNat 0x2029

/-- JavaScript `String.prototype.trim`. -/
def jsTrim (s : Str) : Str :=
  ((s.dropWhile isWsChar).reverse.dropWhile isWsChar).reverse

/-- Lazy scan for a literal closing delimiter where the intervening
characters are matched by `.` (so line terminators abort the attempt):
returns the content before the first occurrence of `close` and the rest
after it. -/
def scanUntilNoNl (close : Str) : Str → Str → Option (Str × Str)
  | [], _ => none
  | c :: r, acc =>
    if close.isPrefixOf (c :: r) then some (acc.reverse, (c :: r).drop close.length)
    else if isLineTerm c then none
    else scanUntilNoNl close r (c :: acc)

/-- Lazy scan for a literal closing delimiter where the intervening
characters are matched by `[\s\S]` (anything). -/
def scanUntil (close : Str) : Str → Str → Option (Str × Str)
  | [], _ => none
  | c :: r, acc =>
    if close.isPrefixOf (c :: r) then some (acc.reverse, (c :: r).drop close.length)
    else scanUntil close r (c :: acc)

/-- Rest of the string after the first occurrence of `needle` (none if absent). -/
def dropToAfter (needle : Str) : Str → Option Str
  | [] => none
  | c :: r =>
    if needle.isPrefixOf (c :: r) then some ((c :: r).drop needle.length)
    else dropToAfter needle r

/-- JavaScript `String.prototype.indexOf` for a nonempty needle. -/
def indexOfStr (needle : Str) : Str → Option Nat
  | [] => none
  | c :: r =>
    if needle.isPrefixOf (c :: r) then some 0
    else (indexOfStr needle r).map (· + 1)

def containsStr (needle hay : Str) : Bool := (indexOfStr needle hay).isSome

/-- Global replacement of a literal nonempty needle (JS `replace(/needle/g, repl)`). -/
def replaceAllF (needle repl : Str) : Nat → Str → Str
  | 0, s => s
  | _ + 1, [] => []
  | n + 1, c :: r =>
    if needle.isPrefixOf (c :: r) then repl ++ replaceAllF needle repl n ((c :: r).drop needle.length)
    else c :: replaceAllF needle repl n r

def replaceAll (needle repl s : Str) : Str := replaceAllF needle repl (s.length + 1) s

/-- JavaScript `String.prototype.split` on a literal nonempty separator. -/
def splitStrF (sep : Str) : Nat → Str → Str → List Str
  | 0, acc, s => [acc.reverse ++ s]
  | _ + 1, acc, [] => [acc.reverse]
  | n + 1, acc, c :: r =>
    if sep.isPrefixOf (c :: r) then acc.reverse :: splitStrF sep n [] ((c :: r).drop sep.length)
    else splitStrF sep n (c :: acc) r

def splitOnStr (sep s : Str) : List Str := splitStrF sep (s.length + 1) [] s

/-- Splitting a string at every occurrence of one character (used to speak
about the lines of a reflowed text). -/
def splitOnChar (c : Char) : Str → List Str
  | [] => [[]]
  | x :: xs =>
    if x = c then [] :: splitOnChar c xs
    else
      match splitOnChar c xs with
      | [] => [[x]]
      | l :: ls => (x :: l) :: ls

/-- JavaScript `split(/\s+/)`: the state is `some cur` while a segment is
being accumulated (reversed), `none` inside a whitespace run. -/
def splitWsGo : Str → Option Str → List Str
  | [], some cur => [cur.reverse]
  | [], none => [[]]
  | c :: r, some cur =>
    if isWsChar c then cur.reverse :: splitWsGo r none else splitWsGo r (some (c :: cur))
  | c :: r, none =>
    if isWsChar c then splitWsGo r none else splitWsGo r (some [c])

def splitWs (s : Str) : List Str := splitWsGo s (some [])

/-! ### matchTag

`matchTag(text, tag)` matches `` `<${tag}([^>]*)>(.*?)</${tag}>` `` and
returns the two capture groups of the leftmost match. -/

/-- After a greedy `[^>]*` run the next character must be the literal `>`
(shorter backtracks leave a non-`>` character there, so this is exact). -/
def expectGt (s : Str) : Option Str :=
  match s with
  | c :: r => if c = '>' then some r else none
  | [] => none

def matchTagAt (tag : Str) (s : Str) : Option (Str × Str) :=
  if ('<' :: tag).isPrefixOf s then
    match expectGt ((s.drop (tag.length + 1)).dropWhile (fun c => c ≠ '>')) with
    | some r2 =>
      match scanUntilNoNl ('<' :: '/' :: (tag ++ ['>'])) r2 [] with
      | some (content, _) => some ((s.drop (tag.length + 1)).takeWhile (fun c => c ≠ '>'), content)
      | none => none
    | none => none
  else none

def matchTagFrom (tag : Str) : Str → Option (Str × Str)
  | [] => none
  | c :: r =>
    match matchTagAt tag (c :: r) with
    | some res => some res
    | none => matchTagFrom tag r

def matchTag (text tag : Str) : Option (Str × Str) := matchTagFrom tag text

/-! ### parseArgs

`argRegex` is
`/<span class='[^']+name'>([^<]+)<\/span> <span class='argtype'>\(([^<]+)\)<\/span> &ndash; (.*?)<br\/>/g`.
At a candidate position, backtracking of the greedy pieces is deterministic:
`[^']+` must end exactly four characters before the next apostrophe with
those four characters spelling `name`; each `[^<]+` runs to the next `<`
(the second one must end with the literal `)`). -/

def quoteC : Char := Char.ofNat 39

def spanOpenLit : Str := "<span class='".toList
def nameLit : Str := "name".toList
def argLit1 : Str := "</span> <span class='argtype'>(".toList
def argLit2 : Str := "</span> &ndash; ".toList
def brLit : Str := "<br/>".toList
def optMarker : Str := ", optional".toList

def argMatchAt (s : Str) : Option ((Str × Str × Str) × Str) :=
  if spanOpenLit.isPrefixOf s then
    let r := s.drop spanOpenLit.length
    let run := r.takeWhile (fun c => c ≠ quoteC)
    if 5 ≤ run.length && run.drop (run.length - 4) == nameLit then
      match r.drop run.length with
      | q :: gt :: r3 =>
        if q == quoteC && gt == '>' then
          let g1 := r3.takeWhile (fun c => c ≠ '<')
          if g1.isEmpty then none
          else if argLit1.isPrefixOf (r3.drop g1.length) then
            let r4 := (r3.drop g1.length).drop argLit1.length
            let run2 := r4.takeWhile (fun c => c ≠ '<')
            if 2 ≤ run2.length && run2.getLast? == some ')' &&
                argLit2.isPrefixOf (r4.drop run2.length) then
              match scanUntilNoNl brLit ((r4.drop run2.length).drop argLit2.length) [] with
              | some (g3, rest) => some ((g1, run2.dropLast, g3), rest)
              | none => none
            else none
          else none
        else none
      | _ => none
    else none
  else none

def argMatchesGo : Nat → Str → List (Str × Str × Str)
  | 0, _ => []
  | _ + 1, [] => []
  | n + 1, c :: r =>
    match argMatchAt (c :: r) with
    | some (g, rest) => g :: argMatchesGo n rest
    | none => argMatchesGo n r

def argMatches (p : Str) : List (Str × Str × Str) := argMatchesGo (p.length + 1) p

structure Argument where
  name : Str
  type : Str
  optional : Bool
  desc : Str
deriving DecidableEq, Repr

/-- One entry of `parseArgs`: `optional = type.indexOf(', optional')`,
`optional > -1` decides the flag, and on success `type` is truncated at the
marker. -/
def mkArg : Str × Str × Str → Argument
  | (n, ty, d) =>
    match indexOfStr optMarker ty with
    | some i => { name := n, desc := d, optional := true, type := ty.take i }
    | none => { name := n, desc := d, optional := false, type := ty }

def parseArgs (paragraph : Str) : List Argument := (argMatches paragraph).map mkArg

/-! ### parseExample -/

def preOpenLit : Str := "<pre class='example'>".toList
def preCloseLit : Str := "</pre>".toList

def parseExample (paragraph : Str) : Option Str :=
  match dropToAfter preOpenLit paragraph with
  | none => none
  | some r =>
    match scanUntil preCloseLit r [] with
    | none => none
    | some (content, _) => some (jsTrim content)

/-! ### extractTables -/

abbrev Table := List (List Str)
abbrev TblMap := List (Str × Table)

/-- Opening `<table[^>]*>` at the current position. -/
def tableOpenAt (s : Str) : Option Str :=
  if "<table".toList.isPrefixOf s then expectGt ((s.drop 6).dropWhile (fun c => c ≠ '>'))
  else none

/-- The closing pattern after its initial `<` and optional `/`: the literal
`table`, an optional `/`, and `>`. -/
def tableCloseTail (r1 : Str) : Option Str :=
  if "table".toList.isPrefixOf r1 then
    expectGt (if (r1.drop 5).head? == some '/' then (r1.drop 5).tail else r1.drop 5)
  else none

/-- Closing pattern `<\/?table\/?>` at the current position (accepting the
four variants `</table>`, `<table>`, `</table/>`, `<table/>`). -/
def tableCloseAt (s : Str) : Option Str :=
  match s with
  | c :: r =>
    if c = '<' then tableCloseTail (if r.head? == some '/' then r.tail else r)
    else none
  | [] => none

/-- Lazy scan of `[\s\S]*?` up to the first position where the closing
pattern matches. -/
def tableScan : Str → Str → Option (Str × Str)
  | [], _ => none
  | c :: r, acc =>
    match tableCloseAt (c :: r) with
    | some rest => some (acc.reverse, rest)
    | none => tableScan r (c :: acc)

/-- One attempt of `/<table[^>]*>([\s\S]*?)<\/?table\/?>/` at the current
position: returns (capture group, rest after the match). -/
def tryTableAt (s : Str) : Option (Str × Str) :=
  match tableOpenAt s with
  | some r => tableScan r []
  | none => none

/-- `match[1].matchAll(/<tr>(.*?)<\/tr>/g)`: contents of the row matches. -/
def rowMatchesGo : Nat → Str → List Str
  | 0, _ => []
  | _ + 1, [] => []
  | n + 1, c :: r =>
    if "<tr>".toList.isPrefixOf (c :: r) then
      match scanUntilNoNl ("</tr>".toList) ((c :: r).drop 4) [] with
      | some (content, rest) => content :: rowMatchesGo n rest
      | none => rowMatchesGo n r
    else rowMatchesGo n r

def rowMatches (s : Str) : List Str := rowMatchesGo (s.length + 1) s

/-- `row.matchAll(/<td[^>]*>(.*?)<\/td>/g)`: contents of the cell matches. -/
def cellMatchesGo : Nat → Str → List Str
  | 0, _ => []
  | _ + 1, [] => []
  | n + 1, c :: r =>
    if "<td".toList.isPrefixOf (c :: r) then
      match expectGt (((c :: r).drop 3).dropWhile (fun x => x ≠ '>')) with
      | some r2 =>
        match scanUntilNoNl ("</td>".toList) r2 [] with
        | some (content, rest) => content :: cellMatchesGo n rest
        | none => cellMatchesGo n r
      | none => cellMatchesGo n r
    else cellMatchesGo n r

def cellMatches (s : Str) : List Str := cellMatchesGo (s.length + 1) s

/-- `column.replace(/&nbsp;/gm, ' ').trim()`. -/
def cellClean (c : Str) : Str := jsTrim (replaceAll ("&nbsp;".toList) [' '] c)

/-- JavaScript object property assignment `m[k] = v`: overwrite in place or
append. -/
def tblSet (k : Str) (v : Table) : TblMap → TblMap
  | [] => [(k, v)]
  | (k2, v2) :: rest => if k2 = k then (k, v) :: rest else (k2, v2) :: tblSet k v rest

/-- String coercion of `undefined` (the table name when the first row has no
cell). -/
def undefStr : Str := "undefined".toList

/-- The template literal `` `${table:${name}}` ``. -/
def tablePlaceholder (name : Str) : Str := "$\x7btable:".toList ++ name ++ ['\x7d']

/-- The `matchAll` loop of `extractTables`: the text accumulator holds the
(reversed) output built so far; reading the name of a rowless table is the
JavaScript `TypeError` modelled as `.error ()`. -/
def exLoopF : Nat → Str → Str → TblMap → Except Unit (Str × TblMap)
  | 0, _, _, _ => .error ()
  | _ + 1, [], accT, accM => .ok (accT.reverse, accM)
  | n + 1, c :: r, accT, accM =>
    match tryTableAt (c :: r) with
    | some (content, after) =>
      match (rowMatches content).map (fun row => (cellMatches row).map cellClean) with
      | [] => .error ()
      | row0 :: rest =>
        exLoopF n after ((tablePlaceholder (row0.headD undefStr)).reverse ++ accT)
          (tblSet (row0.headD undefStr) rest accM)
    | none => exLoopF n r (c :: accT) accM

def extractTables (textInput : Str) : Except Unit (Str × TblMap) :=
  match exLoopF (textInput.length + 1) textInput [] [] with
  | .error e => .error e
  | .ok (txt, tbls) => .ok (jsTrim txt, tbls)

/-! ### formatDescription -/

/-- `formattedDescription += (formattedDescription ? "\n" : "") + currentLine`. -/
def appendLine (fd cur : Str) : Str := fd ++ (if fd.isEmpty then [] else ['\n']) ++ cur

def fmtLoop : List Str → Str → Str → Str
  | [], cur, fd => if cur.isEmpty then fd else appendLine fd cur
  | w :: ws, cur, fd =>
    if cur.length + w.length + 1 ≤ 80 then
      fmtLoop ws (cur ++ (if cur.isEmpty then [] else [' ']) ++ w) fd
    else fmtLoop ws w (appendLine fd cur)

def formatDescription (description : Str) : Str := fmtLoop (splitWs description) [] []

/-! ### Records -/

structure FunctionRec where
  name : Str
  arguments : List Argument
  returns : List Argument
  examples : List (Option Str)
  description : Str
  tables : TblMap
deriving DecidableEq, Repr

structure CategoryRec where
  name : Str
  description : Str
  tables : TblMap
  entries : List Str
deriving DecidableEq, Repr

structure Document where
  version : Str
  categories : List CategoryRec
  functions : List FunctionRec
deriving DecidableEq, Repr

/-! ### parseFunction -/

def h3Tag : Str := "h3".toList
def h2Tag : Str := "h2".toList
def aTag : Str := "a".toList
def pTag : Str := "<p>".toList
def hrTag : Str := "<hr/>".toList

/-- `parseFunction`: `paragraphs[3].trim()` on a fragment with fewer than
four `<p>`-separated segments is the JavaScript `TypeError`, modelled as
`.error ()`. -/
def parseFunction (text : Str) : Except Unit (Option FunctionRec) :=
  match matchTag text h3Tag with
  | none => .ok none
  | some (_, nm) =>
    let paragraphs := splitOnStr pTag text
    match paragraphs.get? 3 with
    | none => .error ()
    | some p3 =>
      let rawDescription :=
        if 5 < paragraphs.length then
          jsTrim p3 ++ ('\n' :: '\n' :: jsTrim ((paragraphs.get? 4).getD []))
        else jsTrim p3
      match extractTables rawDescription with
      | .error e => .error e
      | .ok (textPart, tablesPart) =>
        .ok (some {
          name := nm
          arguments := parseArgs ((paragraphs.get? 1).getD [])
          returns := parseArgs ((paragraphs.get? 2).getD [])
          examples := [parseExample ((paragraphs.getLast?).getD [])]
          description := formatDescription textPart
          tables := tablesPart })

/-! ### parseCategory -/

def hrefLit : Str := "<a href='#".toList

/-- `part.matchAll(/<a href='#([^']*)'/g)`: the hyperlink target names. -/
def hrefGo : Nat → Str → List Str
  | 0, _ => []
  | _ + 1, [] => []
  | n + 1, c :: r =>
    if hrefLit.isPrefixOf (c :: r) then
      let afterLit := (c :: r).drop hrefLit.length
      let grp := afterLit.takeWhile (fun x => x ≠ quoteC)
      match afterLit.drop grp.length with
      | q :: r2 => if q == quoteC then grp :: hrefGo n r2 else hrefGo n r
      | [] => hrefGo n r
    else hrefGo n r

def hrefMatches (p : Str) : List Str := hrefGo (p.length + 1) p

/-- The loop over `text.split('<p>').slice(1)` of `parseCategory`,
accumulating tables (spread merge), description chunks and entries. -/
def catLoop : List Str → TblMap → List Str → List Str →
    Except Unit (TblMap × List Str × List Str)
  | [], tbls, descs, ents => .ok (tbls, descs.reverse, ents.reverse)
  | part :: rest, tbls, descs, ents =>
    match matchTag part aTag with
    | some _ => catLoop rest tbls descs ((hrefMatches part).reverse ++ ents)
    | none =>
      match extractTables part with
      | .error e => .error e
      | .ok (textPart, tablesPart) =>
        catLoop rest (tablesPart.foldl (fun m kv => tblSet kv.1 kv.2 m) tbls)
          (if textPart.isEmpty then descs else textPart :: descs) ents

def parseCategory (text : Str) : Except Unit (Option CategoryRec) :=
  match matchTag text h2Tag with
  | none => .ok none
  | some (_, nm) =>
    match catLoop ((splitOnStr pTag text).drop 1) [] [] [] with
    | .error e => .error e
    | .ok (tbls, descs, ents) =>
      .ok (some {
        name := nm
        description := List.intercalate ('\n' :: '\n' :: []) descs
        tables := tbls
        entries := ents })

/-! ### The splitter loop and version extraction (scrapeAPI after the fetch) -/

/-- JavaScript default `Array.prototype.sort()` on strings: the unique
lexicographically nondecreasing (code-unit order) rearrangement, computed by
insertion sort. -/
def lexLe : Str → Str → Bool
  | [], _ => true
  | _ :: _, [] => false
  | a :: as, b :: bs => if a < b then true else if b < a then false else lexLe as bs

def insertLex (x : Str) : List Str → List Str
  | [] => [x]
  | y :: ys => if lexLe x y then x :: y :: ys else y :: insertLex x ys

def sortEntries : List Str → List Str
  | [] => []
  | x :: xs => insertLex x (sortEntries xs)

/-- The `for (const part of data.split("<hr/>"))` loop of `scrapeAPI`. -/
def classifyParts : List Str → Except Unit (List CategoryRec × List FunctionRec)
  | [] => .ok ([], [])
  | p :: ps =>
    match parseCategory p with
    | .error e => .error e
    | .ok (some cat) =>
      match classifyParts ps with
      | .error e => .error e
      | .ok (cs, fs) => .ok ({ cat with entries := sortEntries cat.entries } :: cs, fs)
    | .ok none =>
      match parseFunction p with
      | .error e => .error e
      | .ok (some f) =>
        match classifyParts ps with
        | .error e => .error e
        | .ok (cs, fs) => .ok (cs, f :: fs)
      | .ok none => classifyParts ps

def isVerChar (c : Char) : Bool := c.isDigit || c == '.'

/-- The part of `/<h1>.*?\(([\d\.]+)\)<\/h1>/` after the `<h1>` literal: the
lazy `.*?` consumes one non-line-terminator at a time; at each stop the
engine tries `\(`, a maximal nonempty digits-and-dots run, and `)</h1>`. -/
def vscan : Str → Option Str
  | [] => none
  | c :: r =>
    if c = '(' then
      let run := r.takeWhile isVerChar
      if 0 < run.length && ")</h1>".toList.isPrefixOf (r.drop run.length) then some run
      else if isLineTerm c then none else vscan r
    else if isLineTerm c then none else vscan r

def versionAt (s : Str) : Option Str :=
  if "<h1>".toList.isPrefixOf s then vscan (s.drop 4) else none

def versionFrom : Str → Option Str
  | [] => none
  | c :: r =>
    match versionAt (c :: r) with
    | some v => some v
    | none => versionFrom r

/-- Capture group of the leftmost match of `/<h1>.*?\(([\d\.]+)\)<\/h1>/`. -/
def versionMatch (data : Str) : Option Str := versionFrom data

/-- `scrapeAPI` after the fetch: `data.match(...)[1]` on a version-less
document is the JavaScript `TypeError` (`null[1]`), modelled as `.error ()`;
exceptions thrown by the fragment loop propagate. -/
def scrapeDoc (data : Str) : Except Unit Document :=
  match versionMatch data with
  | none => .error ()
  | some version =>
    match classifyParts (splitOnStr hrTag data) with
    | .error e => .error e
    | .ok (cs, fs) => .ok { version := version, categories := cs, functions := fs }

/-! ### Spec-side predicates -/

/-- The claim's precondition "every matched table block contains at least
one `<tr>` row", stated as a check over the same sequence of `matchAll`
matches that `extractTables` visits. -/
def rowlessF : Nat → Str → Bool
  | 0, _ => true
  | _ + 1, [] => false
  | n + 1, c :: r =>
    match tryTableAt (c :: r) with
    | some (content, after) =>
      if (rowMatches content).isEmpty then true else rowlessF n after
    | none => rowlessF n r

/-- Some matched table block of the input has no `<tr>` row. -/
def hasRowlessTable (s : Str) : Bool := rowlessF (s.length + 1) s

/-- A fragment is accepted by `parseFunction` (yields a record). -/
def acceptedF (t : Str) : Bool :=
  match parseFunction t with
  | .ok (some _) => true
  | _ => false

/-- A fragment is accepted by `parseCategory` (yields a record). -/
def acceptedC (t : Str) : Bool :=
  match parseCategory t with
  | .ok (some _) => true
  | _ => false

/-- Lexicographic (code-unit ascending) order as a relation. -/
def lexR (a b : Str) : Prop := lexLe a b = true

/-! ### Concrete inputs used by the claim theorems -/

/-- End-to-end document: version header, one category fragment with linked
entries `b` then `a`, and two function fragments named `a` and `b`. -/
def docC3 : Str :=
  ("<h1>Teardown API (1.2.3)</h1><hr/>" ++
   "<h2>Objects</h2><p><a href='#b'>b</a> <a href='#a'>a</a><hr/>" ++
   "<h3>a</h3><p>argsA<p>retA<p>descA<p>exA<hr/>" ++
   "<h3>b</h3><p>argsB<p>retB<p>descB<p>exB").toList

/-- The Document the pipeline produces from `docC3`. -/
def docC3Doc : Document :=
  { version := "1.2.3".toList
    categories := [{ name := "Objects".toList, description := [], tables := [],
                     entries := ["a".toList, "b".toList] }]
    functions := [
      { name := "a".toList, arguments := [], returns := [], examples := [none],
        description := "descA".toList, tables := [] },
      { name := "b".toList, arguments := [], returns := [], examples := [none],
        description := "descB".toList, tables := [] }] }

/-- A fragment containing both a level-2 and a level-3 header together with
three `<p>` markers: accepted by both parsers. -/
def ex5 : Str := "<h2>A</h2><h3>B</h3><p>x<p>y<p>z".toList

/-- A document with a valid version header whose single function fragment
has fewer than four `<p>`-separated segments. -/
def doc4 : Str := "<h1>x (1.0)</h1><hr/><h3>y</h3>".toList

/-- A category fragment whose hyperlink targets appear as `b` then `a`. -/
def catC8 : Str := "<h2>Objects</h2><p><a href='#b'>b</a> <a href='#a'>a</a>".toList

/-! ### Length lemmas: every successful match consumes characters.

These justify that the fuel `length + 1` of the matchAll loops is always
sufficient. -/

theorem expectGt_length {s r : Str} (h : expectGt s = some r) : r.length + 1 = s.length := by
  match s with
  | [] => simp [expectGt] at h
  | c :: t =>
    simp only [expectGt] at h
    split at h
    · cases h; simp
    · cases h

theorem tableOpenAt_length {s r : Str} (h : tableOpenAt s = some r) :
    r.length + 7 ≤ s.length := by
  unfold tableOpenAt at h
  split at h
  · have h1 := expectGt_length h
    have h2 : ((s.drop 6).dropWhile (fun c => c ≠ '>')).length ≤ (s.drop 6).length :=
      (List.dropWhile_sublist _).length_le
    have h3 : (s.drop 6).length = s.length - 6 := List.length_drop 6 s
    omega
  · cases h

theorem tableCloseTail_length {r1 r : Str} (h : tableCloseTail r1 = some r) :
    r.length < r1.length := by
  unfold tableCloseTail at h
  split at h
  case isTrue hp =>
    have h1 := expectGt_length h
    have h2 : (if (r1.drop 5).head? == some '/' then (r1.drop 5).tail else r1.drop 5).length ≤
        (r1.drop 5).length := by
      split
      · rw [List.length_tail]; exact Nat.sub_le _ _
      · exact le_rfl
    have h3 : (r1.drop 5).length = r1.length - 5 := List.length_drop 5 r1
    omega
  case isFalse => cases h

theorem tableCloseAt_length {s r : Str} (h : tableCloseAt s = some r) :
    r.length < s.length := by
  match s with
  | [] => simp [tableCloseAt] at h
  | c :: t =>
    simp only [tableCloseAt] at h
    split at h
    · have h1 := tableCloseTail_length h
      have h2 : (if t.head? == some '/' then t.tail else t).length ≤ t.length := by
        split
        · rw [List.length_tail]; exact Nat.sub_le _ _
        · exact le_rfl
      simp only [List.length_cons]
      omega
    · cases h

theorem tableScan_length {content rest : Str} :
    ∀ (s acc : Str), tableScan s acc = some (content, rest) → rest.length ≤ s.length := by
  intro s
  induction s with
  | nil => intro acc h; simp [tableScan] at h
  | cons c t ih =>
    intro acc h
    simp only [tableScan] at h
    split at h
    case h_1 r hc =>
      cases h
      exact le_of_lt (tableCloseAt_length hc)
    case h_2 =>
      have := ih (c :: acc) h
      simp only [List.length_cons]
      omega

theorem tryTableAt_length {s content after : Str} (h : tryTableAt s = some (content, after)) :
    after.length < s.length := by
  unfold tryTableAt at h
  split at h
  case h_1 r hr =>
    have h1 := tableScan_length r [] h
    have h2 := tableOpenAt_length hr
    omega
  case h_2 => cases h

/-! ### Totality of extractTables under the no-rowless-table precondition -/

theorem exLoopF_ok_of_not_rowless :
    ∀ (n : Nat) (s accT : Str) (accM : TblMap), s.length < n → rowlessF n s = false →
      ∃ r, exLoopF n s accT accM = .ok r := by
  intro n
  induction n with
  | zero => intro s _ _ h; omega
  | succ n ih =>
    intro s accT accM hlen hrow
    match s with
    | [] => exact ⟨_, rfl⟩
    | c :: t =>
      simp only [rowlessF] at hrow
      simp only [exLoopF]
      split at hrow
      case h_1 content after htr =>
        split at hrow
        case isTrue => cases hrow
        case isFalse hne =>
          have hmap : (rowMatches content).map (fun row => (cellMatches row).map cellClean) ≠ [] := by
            simp only [ne_eq, List.map_eq_nil_iff]
            simpa [List.isEmpty_iff] using hne
          have hafter : after.length < n := by
            have := tryTableAt_length htr
            simp only [List.length_cons] at hlen this
            omega
          cases hm : (rowMatches content).map (fun row => (cellMatches row).map cellClean) with
          | nil => exact absurd hm hmap
          | cons row0 rest => exact ih after _ _ hafter hrow
      case h_2 htr =>
        have ht : t.length < n := by
          simp only [List.length_cons] at hlen
          omega
        exact ih t (c :: accT) accM ht hrow

/-! ### Short-circuit behaviour of the parsers and the splitter loop -/

theorem parseFunction_of_no_h3 (t : Str) (h : matchTag t h3Tag = none) :
    parseFunction t = .ok none := by
  simp only [parseFunction, h]

theorem parseCategory_of_no_h2 (t : Str) (h : matchTag t h2Tag = none) :
    parseCategory t = .ok none := by
  simp only [parseCategory, h]

theorem classifyParts_skip (p : Str) (ps : List Str)
    (h1 : parseCategory p = .ok none) (h2 : parseFunction p = .ok none) :
    classifyParts (p :: ps) = classifyParts ps := by
  simp only [classifyParts, h1, h2]

theorem classifyParts_cat (p : Str) (ps : List Str) (c : CategoryRec)
    (cs : List CategoryRec) (fs : List FunctionRec)
    (h1 : parseCategory p = .ok (some c)) (h2 : classifyParts ps = .ok (cs, fs)) :
    classifyParts (p :: ps) =
      .ok ({ c with entries := sortEntries c.entries } :: cs, fs) := by
  simp only [classifyParts, h1, h2]

/-! ### Claim C3 -/

/-- Claim C3: on the document with header `<h1>Teardown API (1.2.3)</h1>`,
one category fragment with two hyperlink entries `b` then `a`, and two
function fragments named `a` and `b`, the post-fetch pipeline returns a
Document with version "1.2.3", exactly one Category whose entries are
`["a", "b"]`, and two Functions named `a` and `b` in document order. -/
theorem scrapeDoc_end_to_end : scrapeDoc docC3 = .ok docC3Doc := by rfl

/-! ### Claim C6 -/

/-- The two-table input demonstrating placeholder positions, `&nbsp;`
normalization and cell trimming. -/
def tablesEx2 : Str :=
  ("A<table><tr><td>T1</td></tr></table>B" ++
   "<table><tr><td>T2</td><td>x</td></tr><tr><td>&nbsp;y&nbsp;</td></tr></table>C").toList

/-- Claim C6: each matched table block is stored under the first cell of its
first row with that row excluded and cells normalized (`&nbsp;` to space,
trimmed), and a `${table:<name>}` placeholder stands at the table's original
position; in particular the input
`<table><tr><td>Colors</td></tr><tr><td>Red</td><td>255,0,0</td></tr></table>`
yields the table mapping `{"Colors": [["Red","255,0,0"]]}` and the
placeholder `${table:Colors}` as the remaining text. The second conjunct
shows two tables in one block, placeholder order, name-row exclusion and
cell normalization. -/
theorem extractTables_spec :
    extractTables
        ("<table><tr><td>Colors</td></tr><tr><td>Red</td><td>255,0,0</td></tr></table>".toList)
      = .ok (tablePlaceholder ("Colors".toList),
             [("Colors".toList, [["Red".toList, "255,0,0".toList]])]) ∧
    extractTables tablesEx2
      = .ok ("A".toList ++ tablePlaceholder ("T1".toList) ++ "B".toList ++
               tablePlaceholder ("T2".toList) ++ "C".toList,
             [("T1".toList, []), ("T2".toList, [["y".toList]])]) := by
  exact ⟨by rfl, by rfl⟩

/-! ### Claim C10 -/

/-- Claim C10: `extractTables` returns normally on every input whose matched
table blocks each contain at least one `<tr>` row, and raises (JavaScript
`TypeError`, modelled `.error ()`) on `<table></table>`, whose matched block
has no row. -/
theorem extractTables_total_iff_rows :
    (∀ s : Str, hasRowlessTable s = false → ∃ r, extractTables s = .ok r) ∧
    extractTables ("<table></table>".toList) = .error () := by
  constructor
  · intro s h
    unfold extractTables
    obtain ⟨r, hr⟩ :=
      exLoopF_ok_of_not_rowless (s.length + 1) s [] [] (by omega) h
    rw [hr]
    exact ⟨(jsTrim r.1, r.2), rfl⟩
  · rfl

/-- Witness for C10: a table-free input satisfies the precondition and
extraction returns normally. -/
theorem extractTables_total_iff_rows_witness :
    ∃ r, extractTables ("plain text".toList) = .ok r :=
  extractTables_total_iff_rows.1 ("plain text".toList) (by decide)

/-! ### Claim C1 -/

/-- Counterexample to C1 as stated: a fragment that contains an `<h3>`
header but no `<p>` marker makes `parseFunction` raise
(`paragraphs[3].trim()` on `undefined`), so fragment-level structural
mismatches are not all non-fatal. -/
theorem parseFunction_raises_cex : parseFunction ("<h3>x</h3>".toList) = .error () := by rfl

/-- Claim C1 (amended): a fragment lacking the `<h3>` (resp. `<h2>`) header
is rejected without raising by `parseFunction` (resp. `parseCategory`), and
a fragment rejected by both parsers is skipped by the splitter loop; but a
fragment that has an `<h3>` header and fewer than four `<p>`-separated
segments makes `parseFunction` raise, which aborts the whole run. -/
theorem parsers_no_result_amended :
    (∀ t : Str, matchTag t h3Tag = none → parseFunction t = .ok none) ∧
    (∀ t : Str, matchTag t h2Tag = none → parseCategory t = .ok none) ∧
    (∀ (p : Str) (ps : List Str), parseCategory p = .ok none → parseFunction p = .ok none →
       classifyParts (p :: ps) = classifyParts ps) ∧
    parseFunction ("<h3>x</h3>".toList) = .error () := by
  exact ⟨parseFunction_of_no_h3, parseCategory_of_no_h2, classifyParts_skip, by rfl⟩

/-- Witness for the amended C1 at a concrete header-free fragment. -/
theorem parsers_no_result_amended_witness :
    parseFunction ("just text".toList) = .ok none :=
  parsers_no_result_amended.1 ("just text".toList) (by decide)

/-! ### Claim C4 -/

/-- Counterexample to C4 as stated: `doc4` contains a well-formed `<h1>`
version header (the version pattern matches, capturing "1.0"), yet the
pipeline still raises, because its function fragment has fewer than four
`<p>`-separated segments — so "raises exactly when the version pattern
fails" is false in the only-if direction. -/
theorem scrapeDoc_raises_with_version_cex :
    versionMatch doc4 = some ("1.0".toList) ∧ scrapeDoc doc4 = .error () := by
  exact ⟨by rfl, by rfl⟩

/-- Claim C4 (amended): the pipeline raises whenever the document has no
`<h1>` header with a parenthesized dotted-numeric version (no fallback), and
whenever it does return a Document its version is the captured
digits-and-dots string of the first match of the version pattern; a version
match alone does not guarantee a normal return (fragment-level errors also
raise). -/
theorem scrapeDoc_version_amended :
    (∀ data : Str, versionMatch data = none → scrapeDoc data = .error ()) ∧
    (∀ (data : Str) (doc : Document), scrapeDoc data = .ok doc →
       ∃ v, versionMatch data = some v ∧ doc.version = v) := by
  constructor
  · intro data h
    simp only [scrapeDoc, h]
  · intro data doc h
    unfold scrapeDoc at h
    split at h
    · cases h
    case h_2 v hv =>
      split at h
      · cases h
      case h_2 cs fs hcf =>
        cases h
        exact ⟨v, hv, rfl⟩

/-- Witness for the amended C4 on the end-to-end document. -/
theorem scrapeDoc_version_amended_witness :
    ∃ v, versionMatch docC3 = some v ∧ docC3Doc.version = v :=
  scrapeDoc_version_amended.2 docC3 docC3Doc (by rfl)

/-! ### Claim C5 -/

/-- Counterexample to C5 as stated: the fragment
`<h2>A</h2><h3>B</h3><p>x<p>y<p>z` contains both header markers and is
accepted (yields a record) by both `parseCategory` and `parseFunction`. -/
theorem both_parsers_accept_cex : acceptedC ex5 = true ∧ acceptedF ex5 = true := by
  exact ⟨by decide, by decide⟩

/-- Claim C5 (amended): `parseFunction` returns no result on a fragment
lacking a level-3 header and `parseCategory` returns no result on a
fragment lacking a level-2 header, but a fragment containing both headers
can be accepted by both parsers; the splitter resolves this by consulting
`parseCategory` first, so such a fragment is classified as a category. -/
theorem parser_rejection_amended :
    (∀ t : Str, matchTag t h3Tag = none → parseFunction t = .ok none) ∧
    (∀ t : Str, matchTag t h2Tag = none → parseCategory t = .ok none) ∧
    (∀ (p : Str) (ps : List Str) (c : CategoryRec) (cs : List CategoryRec)
       (fs : List FunctionRec),
       parseCategory p = .ok (some c) → classifyParts ps = .ok (cs, fs) →
       classifyParts (p :: ps) =
         .ok ({ c with entries := sortEntries c.entries } :: cs, fs)) := by
  exact ⟨parseFunction_of_no_h3, parseCategory_of_no_h2, classifyParts_cat⟩

/-- Witness for the amended C5 at a concrete header-free fragment. -/
theorem parser_rejection_amended_witness :
    parseCategory ("no markers".toList) = .ok none :=
  parser_rejection_amended.2.1 ("no markers".toList) (by decide)

/-! ### Claim C7 -/

/-- The argument-list entry from the spec's example. -/
def argEx : Str :=
  "<span class='foo name'>x</span> <span class='argtype'>(number, optional)</span> &ndash; desc<br/>".toList

/-- Claim C7: `parseArgs` maps the matched entries in document order through
`mkArg`; an entry's `optional` is true iff the parenthesized content
contains the substring `, optional`, in which case the marker and everything
after it is stripped from `type`, otherwise `type` is kept as-is; a
zero-entry paragraph yields the empty sequence, and the spec's example
paragraph yields exactly `{name:"x", type:"number", optional:true,
desc:"desc"}`. -/
theorem parseArgs_spec :
    parseArgs argEx =
      [{ name := "x".toList, type := "number".toList, optional := true,
         desc := "desc".toList }] ∧
    parseArgs ("no entries in this paragraph".toList) = [] ∧
    (∀ p : Str, parseArgs p = (argMatches p).map mkArg) ∧
    (∀ n t d : Str, (mkArg (n, t, d)).optional = containsStr optMarker t) ∧
    (∀ (n t d : Str) (i : Nat), indexOfStr optMarker t = some i →
       (mkArg (n, t, d)).type = t.take i) ∧
    (∀ n t d : Str, indexOfStr optMarker t = none → (mkArg (n, t, d)).type = t) := by
  refine ⟨by rfl, by rfl, fun p => rfl, ?_, ?_, ?_⟩
  · intro n t d
    unfold mkArg containsStr
    cases h : indexOfStr optMarker t <;> simp [h]
  · intro n t d i h
    simp only [mkArg, h]
  · intro n t d h
    simp only [mkArg, h]

/-- Witness for C7: stripping at the concrete example's marker index. -/
theorem parseArgs_spec_witness :
    (mkArg ("a".toList, "number, optional".toList, "d".toList)).type =
      ("number, optional".toList).take 6 :=
  parseArgs_spec.2.2.2.2.1 ("a".toList) ("number, optional".toList) ("d".toList) 6 (by decide)

/-! ### Claim C9 -/

theorem parseFunction_examples_eq (t : Str) (f : FunctionRec)
    (h : parseFunction t = .ok (some f)) :
    f.examples = [parseExample (((splitOnStr pTag t).getLast?).getD [])] := by
  simp only [parseFunction] at h
  split at h
  · cases h
  case h_2 attrs nm hm =>
    split at h
    · cases h
    case h_2 p3 hp3 =>
      split at h
      · cases h
      case h_2 textPart tablesPart hex =>
        injection h with h
        injection h with h
        subst h
        rfl

/-- A two-block example segment: only the first `<pre class='example'>`
block is extracted, trimmed. -/
def exTwoBlocks : Str :=
  "<pre class='example'> first </pre><pre class='example'>second</pre>".toList

/-- Claim C9: for every accepted function fragment, `examples` is the
one-element sequence holding `parseExample` of the fragment's last
`<p>`-separated segment; `parseExample` returns the trimmed inner content of
the first `<pre class='example'>` block (later blocks are ignored) or an
absent value when the segment has no such block. -/
theorem function_examples_spec :
    (∀ (t : Str) (f : FunctionRec), parseFunction t = .ok (some f) →
       f.examples = [parseExample (((splitOnStr pTag t).getLast?).getD [])]) ∧
    parseExample exTwoBlocks = some ("first".toList) ∧
    parseExample ("no example block".toList) = none := by
  exact ⟨parseFunction_examples_eq, by rfl, by rfl⟩

/-- Witness for C9 on a concrete accepted fragment whose last segment has an
example block. -/
theorem function_examples_spec_witness :
    ({ name := "w".toList, arguments := [], returns := [],
       examples := [some ("hi()".toList)], description := "dd".toList,
       tables := [] } : FunctionRec).examples =
      [parseExample (((splitOnStr pTag
        ("<h3>w</h3><p>aa<p>rr<p>dd<p><pre class='example'> hi() </pre>".toList)).getLast?).getD [])] :=
  function_examples_spec.1
    ("<h3>w</h3><p>aa<p>rr<p>dd<p><pre class='example'> hi() </pre>".toList)
    { name := "w".toList, arguments := [], returns := [],
      examples := [some ("hi()".toList)], description := "dd".toList, tables := [] }
    (by rfl)

/-! ### Claim C2: the text reflower -/

theorem splitOnChar_ne_nil (c : Char) (l : Str) : splitOnChar c l ≠ [] := by
  induction l with
  | nil => simp [splitOnChar]
  | cons x xs ih =>
    simp only [splitOnChar]
    split
    · simp
    · split
      · simp
      · simp

theorem splitOnChar_of_not_mem {c : Char} {l : Str} (h : c ∉ l) : splitOnChar c l = [l] := by
  induction l with
  | nil => rfl
  | cons x xs ih =>
    have hx : x ≠ c := fun he => h (he ▸ List.mem_cons_self x xs)
    have hxs : c ∉ xs := fun hm => h (List.mem_cons_of_mem _ hm)
    simp only [splitOnChar, if_neg hx]
    rw [ih hxs]

theorem splitOnChar_cons_self (c : Char) (t : Str) :
    splitOnChar c (c :: t) = [] :: splitOnChar c t := by
  simp [splitOnChar]

theorem splitOnChar_cons_ne {x c : Char} (h : ¬ x = c) {t l : Str} {ls : List Str}
    (h2 : splitOnChar c t = l :: ls) :
    splitOnChar c (x :: t) = (x :: l) :: ls := by
  simp [splitOnChar, h, h2]

theorem splitOnChar_append_cons (c : Char) (a b : Str) :
    splitOnChar c (a ++ c :: b) = splitOnChar c a ++ splitOnChar c b := by
  induction a with
  | nil => simp [splitOnChar]
  | cons x xs ih =>
    by_cases hx : x = c
    · subst hx
      rw [List.cons_append, splitOnChar_cons_self, splitOnChar_cons_self, ih]
      rfl
    · obtain ⟨l, ls, hsp⟩ : ∃ l ls, splitOnChar c xs = l :: ls := by
        cases h : splitOnChar c xs with
        | nil => exact absurd h (splitOnChar_ne_nil c xs)
        | cons l ls => exact ⟨l, ls, rfl⟩
      have h1 : splitOnChar c (xs ++ c :: b) = l :: (ls ++ splitOnChar c b) := by
        rw [ih, hsp]
        rfl
      rw [List.cons_append, splitOnChar_cons_ne hx h1, splitOnChar_cons_ne hx hsp]
      rfl

/-- Every segment produced by `split(/\s+/)` consists of non-whitespace
characters only. -/
theorem splitWsGo_tokens_nows :
    ∀ (s : Str) (st : Option Str),
      (∀ cur, st = some cur → ∀ x ∈ cur, isWsChar x = false) →
      ∀ w ∈ splitWsGo s st, ∀ x ∈ w, isWsChar x = false := by
  intro s
  induction s with
  | nil =>
    intro st hst w hw x hx
    match st with
    | some cur =>
      simp only [splitWsGo, List.mem_singleton] at hw
      subst hw
      exact hst cur rfl x (List.mem_reverse.mp hx)
    | none =>
      simp only [splitWsGo, List.mem_singleton] at hw
      subst hw
      cases hx
  | cons ch r ih =>
    intro st hst w hw x hx
    match st with
    | some cur =>
      simp only [splitWsGo] at hw
      by_cases hc : isWsChar ch
      · rw [if_pos hc] at hw
        rcases List.mem_cons.mp hw with rfl | hw2
        · exact hst cur rfl x (List.mem_reverse.mp hx)
        · exact ih none (by intro c h; cases h) w hw2 x hx
      · rw [if_neg hc] at hw
        refine ih (some (ch :: cur)) ?_ w hw x hx
        intro cur2 h y hy
        injection h with h2
        subst h2
        rcases List.mem_cons.mp hy with rfl | hy2
        · simpa using hc
        · exact hst cur rfl y hy2
    | none =>
      simp only [splitWsGo] at hw
      by_cases hc : isWsChar ch
      · rw [if_pos hc] at hw
        exact ih none (by intro c h; cases h) w hw x hx
      · rw [if_neg hc] at hw
        refine ih (some [ch]) ?_ w hw x hx
        intro cur2 h y hy
        injection h with h2
        subst h2
        rcases List.mem_cons.mp hy with rfl | hy2
        · simpa using hc
        · cases hy2

theorem splitWs_no_nl {d w : Str} (hw : w ∈ splitWs d) : '\n' ∉ w := by
  intro hnl
  have h := splitWsGo_tokens_nows d (some [])
    (by intro cur hc y hy; injection hc with hc2; subst hc2; cases hy) w hw '\n' hnl
  exact absurd h (by decide)

/-- Flushing the current line keeps the invariant: each emitted line is
either within the 80-character bound or is a single whitespace-free token. -/
theorem appendLine_lines (allW : List Str) (fd cur : Str)
    (hcnl : '\n' ∉ cur)
    (hcur : cur.length ≤ 80 ∨ cur ∈ allW)
    (hfd : ∀ L ∈ splitOnChar '\n' fd, L.length ≤ 80 ∨ L ∈ allW) :
    ∀ L ∈ splitOnChar '\n' (appendLine fd cur), L.length ≤ 80 ∨ L ∈ allW := by
  intro L hL
  unfold appendLine at hL
  by_cases hfde : fd.isEmpty
  · rw [if_pos hfde] at hL
    have he : fd = [] := List.isEmpty_iff.mp hfde
    subst he
    simp only [List.nil_append] at hL
    rw [splitOnChar_of_not_mem hcnl] at hL
    rw [List.mem_singleton] at hL
    subst hL
    exact hcur
  · rw [if_neg hfde] at hL
    rw [show fd ++ ['\n'] ++ cur = fd ++ '\n' :: cur by simp] at hL
    rw [splitOnChar_append_cons] at hL
    rcases List.mem_append.mp hL with h | h
    · exact hfd L h
    · rw [splitOnChar_of_not_mem hcnl, List.mem_singleton] at h
      subst h
      exact hcur

theorem fmtLoop_lines (allW : List Str) :
    ∀ (ws : List Str) (cur fd : Str),
      (∀ w ∈ ws, w ∈ allW ∧ '\n' ∉ w) →
      '\n' ∉ cur → (cur.length ≤ 80 ∨ cur ∈ allW) →
      (∀ L ∈ splitOnChar '\n' fd, L.length ≤ 80 ∨ L ∈ allW) →
      ∀ L ∈ splitOnChar '\n' (fmtLoop ws cur fd), L.length ≤ 80 ∨ L ∈ allW := by
  intro ws
  induction ws with
  | nil =>
    intro cur fd _ hcnl hcur hfd L hL
    simp only [fmtLoop] at hL
    by_cases hce : cur.isEmpty
    · rw [if_pos hce] at hL
      exact hfd L hL
    · rw [if_neg hce] at hL
      exact appendLine_lines allW fd cur hcnl hcur hfd L hL
  | cons w ws ih =>
    intro cur fd hws hcnl hcur hfd L hL
    have hw := hws w (List.mem_cons_self w ws)
    have hws2 : ∀ u ∈ ws, u ∈ allW ∧ '\n' ∉ u :=
      fun u hu => hws u (List.mem_cons_of_mem _ hu)
    simp only [fmtLoop] at hL
    by_cases hfit : cur.length + w.length + 1 ≤ 80
    · rw [if_pos hfit] at hL
      refine ih _ fd hws2 ?_ ?_ hfd L hL
      · intro hn
        rcases List.mem_append.mp hn with hn1 | hn1
        · rcases List.mem_append.mp hn1 with hn2 | hn2
          · exact hcnl hn2
          · by_cases hce : cur.isEmpty
            · rw [if_pos hce] at hn2
              cases hn2
            · rw [if_neg hce] at hn2
              rw [List.mem_singleton] at hn2
              cases hn2
        · exact hw.2 hn1
      · left
        by_cases hce : cur.isEmpty
        · have he : cur = [] := List.isEmpty_iff.mp hce
          subst he
          simp only [List.length_nil] at hfit
          simpa using by omega
        · rw [if_neg hce]
          simp only [List.length_append, List.length_singleton]
          omega
    · rw [if_neg hfit] at hL
      exact ih w (appendLine fd cur) hws2 hw.2 (Or.inr hw.1)
        (appendLine_lines allW fd cur hcnl hcur hfd) L hL

/-- Claim C2: every line of the reflowed output is at most 80 characters
long, except that a whitespace-delimited token longer than 80 characters
occupies a line of its own unmodified (it is one of the input's tokens);
empty input yields empty output. -/
theorem formatDescription_lines :
    (∀ d : Str, ∀ L ∈ splitOnChar '\n' (formatDescription d),
       L.length ≤ 80 ∨ (80 < L.length ∧ L ∈ splitWs d)) ∧
    formatDescription [] = [] := by
  constructor
  · intro d L hL
    have base : ∀ M ∈ splitOnChar '\n' ([] : Str), M.length ≤ 80 ∨ M ∈ splitWs d := by
      intro M hM
      simp only [splitOnChar, List.mem_singleton] at hM
      subst hM
      left
      simp
    have h := fmtLoop_lines (splitWs d) (splitWs d) [] []
      (fun w hw => ⟨hw, splitWs_no_nl hw⟩)
      (by simp) (Or.inl (by simp)) base L hL
    rcases h with h | h
    · exact Or.inl h
    · by_cases hlen : L.length ≤ 80
      · exact Or.inl hlen
      · exact Or.inr ⟨by omega, h⟩
  · rfl

/-- Witness for C2 at a concrete input. -/
theorem formatDescription_lines_witness :
    ("hello".toList).length ≤ 80 ∨
      (80 < ("hello".toList).length ∧ "hello".toList ∈ splitWs ("hello".toList)) :=
  formatDescription_lines.1 ("hello".toList) ("hello".toList) (by decide)

/-! ### Claim C8: entry sorting -/

theorem lexLe_total (a b : Str) : lexLe a b = true ∨ lexLe b a = true := by
  induction a generalizing b with
  | nil => left; rfl
  | cons x xs ih =>
    cases b with
    | nil => right; rfl
    | cons y ys =>
      rcases lt_trichotomy x y with h | h | h
      · left
        simp [lexLe, h]
      · subst h
        rcases ih ys with h2 | h2
        · left
          simp [lexLe, lt_irrefl, h2]
        · right
          simp [lexLe, lt_irrefl, h2]
      · right
        simp [lexLe, h]

theorem lexLe_trans {a b c : Str} (h1 : lexLe a b = true) (h2 : lexLe b c = true) :
    lexLe a c = true := by
  induction a generalizing b c with
  | nil => rfl
  | cons x xs ih =>
    cases b with
    | nil => simp [lexLe] at h1
    | cons y ys =>
      cases c with
      | nil => simp [lexLe] at h2
      | cons z zs =>
        simp only [lexLe] at h1 h2 ⊢
        by_cases hxy : x < y
        · by_cases hyz : y < z
          · simp [lt_trans hxy hyz]
          · by_cases hzy : z < y
            · simp [hyz, hzy] at h2
            · have he : y = z := le_antisymm (not_lt.mp hzy) (not_lt.mp hyz)
              subst he
              simp [hxy]
        · by_cases hyx : y < x
          · simp [hxy, hyx] at h1
          · have he : x = y := le_antisymm (not_lt.mp hyx) (not_lt.mp hxy)
            subst he
            simp only [lt_irrefl, if_false] at h1
            by_cases hxz : x < z
            · simp [hxz]
            · by_cases hzx : z < x
              · simp [hxz, hzx] at h2
              · have he2 : x = z := le_antisymm (not_lt.mp hzx) (not_lt.mp hxz)
                subst he2
                simp only [lt_irrefl, if_false] at h2 ⊢
                exact ih h1 h2

theorem mem_insertLex {z x : Str} {l : List Str} :
    z ∈ insertLex x l ↔ z = x ∨ z ∈ l := by
  induction l with
  | nil => simp [insertLex]
  | cons y ys ih =>
    simp only [insertLex]
    split
    · simp [List.mem_cons]
    · simp only [List.mem_cons, ih]
      tauto

theorem sorted_insertLex (x : Str) {l : List Str} (h : List.Sorted lexR l) :
    List.Sorted lexR (insertLex x l) := by
  induction l with
  | nil =>
    simp only [insertLex]
    exact List.sorted_singleton x
  | cons y ys ih =>
    rw [List.sorted_cons] at h
    obtain ⟨hy, hys⟩ := h
    simp only [insertLex]
    split
    case isTrue hxy =>
      rw [List.sorted_cons]
      refine ⟨?_, List.sorted_cons.mpr ⟨hy, hys⟩⟩
      intro b hb
      rcases List.mem_cons.mp hb with rfl | hb2
      · exact hxy
      · exact lexLe_trans hxy (hy b hb2)
    case isFalse hxy =>
      have hyx : lexLe y x = true := by
        rcases lexLe_total x y with h2 | h2
        · exact absurd h2 hxy
        · exact h2
      rw [List.sorted_cons]
      refine ⟨?_, ih hys⟩
      intro b hb
      rcases mem_insertLex.mp hb with rfl | hb2
      · exact hyx
      · exact hy b hb2

theorem sorted_sortEntries (l : List Str) : List.Sorted lexR (sortEntries l) := by
  induction l with
  | nil => exact List.sorted_nil
  | cons x xs ih => exact sorted_insertLex x ih

/-- Every category the splitter loop emits carries entries of the form
`sortEntries e`. -/
theorem classifyParts_entries :
    ∀ (ps : List Str) (cs : List CategoryRec) (fs : List FunctionRec),
      classifyParts ps = .ok (cs, fs) →
      ∀ cat ∈ cs, ∃ e, cat.entries = sortEntries e := by
  intro ps
  induction ps with
  | nil =>
    intro cs fs h cat hc
    simp only [classifyParts, Except.ok.injEq, Prod.mk.injEq] at h
    obtain ⟨h1, h2⟩ := h
    subst h1
    cases hc
  | cons p ps ih =>
    intro cs fs h cat hc
    simp only [classifyParts] at h
    split at h
    · cases h
    case h_2 c hc2 =>
      split at h
      · cases h
      case h_2 cs2 fs2 hcl =>
        injection h with h
        injection h with h3 h4
        subst h3
        rcases List.mem_cons.mp hc with rfl | hmem
        · exact ⟨c.entries, rfl⟩
        · exact ih cs2 fs2 hcl cat hmem
    case h_3 hc2 =>
      split at h
      · cases h
      case h_2 f hf =>
        split at h
        · cases h
        case h_2 cs2 fs2 hcl =>
          injection h with h
          injection h with h3 h4
          subst h3
          exact ih cs2 fs2 hcl cat hc
      case h_3 hf => exact ih cs fs h cat hc

/-- Claim C8: every category in a Document returned by the pipeline has its
entries in lexicographic (code-unit ascending) order, whatever the discovery
order in the fragment was; and the sort is applied by the splitter, not by
`parseCategory`, which returns the discovery order (here `["b","a"]`). -/
theorem categories_entries_sorted :
    (∀ (data : Str) (doc : Document), scrapeDoc data = .ok doc →
       ∀ cat ∈ doc.categories, List.Sorted lexR cat.entries) ∧
    parseCategory catC8 =
      .ok (some { name := "Objects".toList, description := [], tables := [],
                  entries := ["b".toList, "a".toList] }) := by
  constructor
  · intro data doc h cat hc
    unfold scrapeDoc at h
    split at h
    · cases h
    case h_2 v hv =>
      split at h
      · cases h
      case h_2 cs fs hcf =>
        cases h
        obtain ⟨e, he⟩ := classifyParts_entries _ _ _ hcf cat hc
        rw [he]
        exact sorted_sortEntries e
  · rfl

/-- Witness for C8 on the end-to-end document's category. -/
theorem categories_entries_sorted_witness :
    List.Sorted lexR
      ({ name := "Objects".toList, description := [], tables := [],
         entries := ["a".toList, "b".toList] } : CategoryRec).entries :=
  categories_entries_sorted.1 docC3 docC3Doc (by rfl)
    { name := "Objects".toList, description := [], tables := [],
      entries := ["a".toList, "b".toList] } (by decide)

end Scraper
